import Mathlib

/-!
Verification of the multi-server session and tool-routing subsystem of
`mcp-client-for-ollama`.

The Python sources are shallowly embedded as pure Lean functions:

* Python `dict` objects (insertion-ordered, insert-or-assign on key
  assignment) are modelled as association lists `List (String × α)`
  with `dictSet` / `dictGet` mirroring `d[k] = v` / `d.get(k)`.
* Stateful methods of `ServerConnector` / `ToolManager` / `MCPClient`
  become state-passing functions over explicit state structures.
* Each `await` of the connection pipeline that can raise is represented by
  a `ConnectOutcome` value describing what the awaited call did; the
  `try`/`except` structure of the Python code is mirrored with `Except`.
-/

namespace MCPO

/-- Python dict assignment `d[k] = v`: if the key is present the value is
replaced in place (insertion order kept), otherwise the pair is appended. -/
def dictSet (d : List (String × α)) (k : String) (v : α) : List (String × α) :=
  match d with
  | [] => [(k, v)]
  | (k', v') :: rest => if k' = k then (k, v) :: rest else (k', v') :: dictSet rest k v

/-- Python dict lookup `d.get(k)`. -/
def dictGet (d : List (String × α)) (k : String) : Option α :=
  match d with
  | [] => none
  | (k', v') :: rest => if k' = k then some v' else dictGet rest k

/-- Python `k in d`. -/
def dictContains (d : List (String × α)) (k : String) : Bool :=
  (dictGet d k).isSome

/-- Python `list(d.keys())`. -/
def dictKeys (d : List (String × α)) : List String :=
  d.map (·.1)

/-- Python `x in l` for a list of strings. -/
def memStr (l : List String) (k : String) : Bool :=
  match l with
  | [] => false
  | x :: r => if x = k then true else memStr r k

@[simp] theorem dictGet_nil (k : String) : dictGet ([] : List (String × α)) k = none := rfl

@[simp] theorem dictGet_cons (k' : String) (v' : α) (rest : List (String × α)) (k : String) :
    dictGet ((k', v') :: rest) k = if k' = k then some v' else dictGet rest k := rfl

@[simp] theorem dictSet_nil (k : String) (v : α) :
    dictSet ([] : List (String × α)) k v = [(k, v)] := rfl

@[simp] theorem dictSet_cons (k' : String) (v' : α) (rest : List (String × α)) (k : String) (v : α) :
    dictSet ((k', v') :: rest) k v
      = if k' = k then (k, v) :: rest else (k', v') :: dictSet rest k v := rfl

theorem dictGet_dictSet (d : List (String × α)) (k : String) (v : α) (k' : String) :
    dictGet (dictSet d k v) k' = if k = k' then some v else dictGet d k' := by
  induction d with
  | nil => by_cases h : k = k' <;> simp [h]
  | cons p rest ih =>
    obtain ⟨k₀, v₀⟩ := p
    by_cases h0 : k₀ = k
    · subst h0
      by_cases h1 : k₀ = k' <;> simp [h1]
    · by_cases h1 : k₀ = k'
      · subst h1
        have hkk : ¬k = k₀ := fun h2 => h0 h2.symm
        simp [h0, hkk]
      · simp [h0, h1, ih]

@[simp] theorem dictGet_dictSet_self (d : List (String × α)) (k : String) (v : α) :
    dictGet (dictSet d k v) k = some v := by
  simp [dictGet_dictSet]

theorem dictGet_dictSet_ne (d : List (String × α)) (k : String) (v : α) (k' : String)
    (h : k ≠ k') : dictGet (dictSet d k v) k' = dictGet d k' := by
  simp [dictGet_dictSet, h]

/-- Re-assigning the value a key already has leaves the dict unchanged. -/
theorem dictSet_of_dictGet_eq (d : List (String × α)) (k : String) (v : α)
    (h : dictGet d k = some v) : dictSet d k v = d := by
  induction d with
  | nil => simp at h
  | cons p rest ih =>
    obtain ⟨k₀, v₀⟩ := p
    by_cases h0 : k₀ = k
    · subst h0
      simp at h
      simp [h]
    · simp [h0] at h ⊢
      exact ih h

theorem dictContains_dictSet (d : List (String × α)) (k : String) (v : α) (k' : String) :
    dictContains (dictSet d k v) k' = (decide (k = k') || dictContains d k') := by
  by_cases h : k = k' <;> simp [dictContains, dictGet_dictSet, h]

theorem dictKeys_dictSet_of_contains (d : List (String × α)) (k : String) (v : α)
    (h : dictContains d k = true) : dictKeys (dictSet d k v) = dictKeys d := by
  induction d with
  | nil => simp [dictContains] at h
  | cons p rest ih =>
    obtain ⟨k₀, v₀⟩ := p
    by_cases h0 : k₀ = k
    · subst h0
      simp [dictKeys]
    · simp [dictContains, h0] at h
      simp [dictKeys, h0] at ih ⊢
      exact ih h

theorem memStr_iff (l : List String) (k : String) : memStr l k = true ↔ k ∈ l := by
  induction l with
  | nil => simp [memStr]
  | cons x r ih =>
    by_cases h : x = k
    · subst h; simp [memStr]
    · simp [memStr, h, ih]
      intro h2
      exact absurd h2.symm h

/-- Folding a constant-value `dictSet` over a list of keys: keys in the list
end up bound to that value. -/
theorem dictGet_foldl_dictSet_mem (names : List String) (b : α) (d : List (String × α))
    (k : String) (h : k ∈ names) :
    dictGet (names.foldl (fun d' n => dictSet d' n b) d) k = some b := by
  induction names generalizing d with
  | nil => simp at h
  | cons n rest ih =>
    simp only [List.foldl_cons]
    by_cases hk : k ∈ rest
    · exact ih (dictSet d n b) hk
    · have hn : n = k := by
        rcases List.mem_cons.mp h with h1 | h2
        · exact h1.symm
        · exact absurd h2 hk
      subst hn
      have frame : ∀ d' : List (String × α),
          dictGet (rest.foldl (fun d'' n' => dictSet d'' n' b) d') n = dictGet d' n := by
        clear ih h
        induction rest with
        | nil => intro d'; rfl
        | cons m tail ih2 =>
          intro d'
          have hm : m ≠ n := by
            intro hmn
            exact hk (hmn ▸ List.mem_cons_self m tail)
          simp only [List.foldl_cons]
          have := ih2 (by intro hmem; exact hk (List.mem_cons_of_mem m hmem))
          rw [this, dictGet_dictSet_ne _ _ _ _ hm]
      rw [frame, dictGet_dictSet_self]

/-- Folding a constant-value `dictSet` over keys not containing `k` leaves
the binding of `k` unchanged. -/
theorem dictGet_foldl_dictSet_not_mem (names : List String) (b : α) (d : List (String × α))
    (k : String) (h : k ∉ names) :
    dictGet (names.foldl (fun d' n => dictSet d' n b) d) k = dictGet d k := by
  induction names generalizing d with
  | nil => rfl
  | cons n rest ih =>
    have hn : n ≠ k := fun hnk => h (hnk ▸ List.mem_cons_self n rest)
    simp only [List.foldl_cons]
    rw [ih _ (fun hmem => h (List.mem_cons_of_mem n hmem)), dictGet_dictSet_ne _ _ _ _ hn]

/-- A fold whose step fixes `d` elementwise fixes `d`. -/
theorem foldl_fixed {β : Type} (f : List (String × α) → β → List (String × α))
    (l : List β) (d : List (String × α)) (h : ∀ x ∈ l, f d x = d) :
    l.foldl f d = d := by
  induction l with
  | nil => rfl
  | cons x rest ih =>
    simp only [List.foldl_cons, h x (List.mem_cons_self x rest)]
    exact ih (fun y hy => h y (List.mem_cons_of_mem x hy))

/-! ## ServerConnector (`mcp_client_for_ollama/server/connector.py`) -/

/-- An MCP tool descriptor (`mcp.Tool`): name, description and schemas.
The schema payloads are carried opaquely as strings. -/
structure Tool where
  name : String
  description : String
  inputSchema : String
  outputSchema : Option String
deriving Repr, DecidableEq

/-- The per-server entry stored in `self.sessions[server_name]`:
`{"session": session, "tools": [...]}`. The live session object itself has
no observable structure beyond the tools retrieved from it. -/
structure SessionEntry where
  tools : List Tool
deriving Repr, DecidableEq

/-- The mutable state of a `ServerConnector`:
`self.sessions`, `self.available_tools`, `self.enabled_tools`. -/
structure ConnState where
  sessions : List (String × SessionEntry)
  available_tools : List Tool
  enabled_tools : List (String × Bool)
deriving Repr, DecidableEq

def emptyConnState : ConnState := ⟨[], [], []⟩

/-- What the awaited calls of one `_connect_to_server` attempt do.
`paramInvalid` is the `return False` taken when script/config parameters are
rejected before any transport is opened; the three `…Error` variants are an
exception raised by, respectively, opening the transport, `session.initialize()`,
and `session.list_tools()`; `ok tools` is a fully successful attempt whose
`list_tools()` returned `tools`. -/
inductive ConnectOutcome where
  | paramInvalid
  | transportError
  | handshakeError
  | listToolsError
  | ok (tools : List Tool)
deriving Repr, DecidableEq

/-- The tool-copy loop of `_connect_to_server` (connector.py lines 180-191):
qualified name `f"{server_name}.{tool.name}"` and decorated description. -/
def qualifyTools (serverName : String) (tools : List Tool) : List Tool :=
  tools.map (fun (t : Tool) =>
    { name := serverName ++ "." ++ t.name
      description := "[" ++ serverName ++ "] " ++ t.description
      inputSchema := t.inputSchema
      outputSchema := t.outputSchema })

/-- The body of the `try:` block of `_connect_to_server` (connector.py lines
112-198), threading the connector state and returning `.error` where the
Python code would propagate an exception to the `except` clauses.  Note the
order faithful to the source: the session is stored in `self.sessions`
immediately after `session.initialize()` succeeds and *before*
`session.list_tools()` is awaited. -/
def connectBody (st : ConnState) (name : String) (oc : ConnectOutcome) :
    ConnState × Except String Bool :=
  match oc with
  | .paramInvalid => (st, .ok false)
  | .transportError => (st, .error "transport")
  | .handshakeError => (st, .error "initialize")
  | .listToolsError =>
      ({ st with sessions := dictSet st.sessions name ⟨[]⟩ }, .error "list_tools")
  | .ok tools =>
      let st1 := { st with sessions := dictSet st.sessions name ⟨[]⟩ }
      let serverTools := qualifyTools name tools
      let st2 := { st1 with
        enabled_tools := serverTools.foldl (fun e (t : Tool) => dictSet e t.name true) st1.enabled_tools }
      let st3 := { st2 with
        sessions := dictSet st2.sessions name ⟨serverTools⟩
        available_tools := st2.available_tools ++ serverTools }
      (st3, .ok true)

/-- `_connect_to_server` (connector.py lines 100-208): the `try` body wrapped
in the catch-all `except` clauses, which log and `return False`. -/
def connectToServer (st : ConnState) (name : String) (oc : ConnectOutcome) :
    ConnState × Bool :=
  match connectBody st name oc with
  | (st', .ok b) => (st', b)
  | (st', .error _) => (st', false)

/-- The per-server loop of `connect_to_servers` (connector.py lines 87-89):
`for server in all_servers: await self._connect_to_server(server)`.
Each element pairs a server's derived name with the behaviour of its
connection attempt. -/
def connectAll (st : ConnState) (specs : List (String × ConnectOutcome)) : ConnState :=
  specs.foldl (fun s p => (connectToServer s p.1 p.2).1) st

/-- Whether `session.initialize()` completed for the given attempt behaviour. -/
def handshakeCompleted : ConnectOutcome → Bool
  | .listToolsError => true
  | .ok _ => true
  | _ => false

/-- `ServerConnector.set_tool_status` (connector.py lines 332-340): update
the enablement entry only when the key is already present. -/
def connSetToolStatus (d : List (String × Bool)) (toolName : String) (enabled : Bool) :
    List (String × Bool) :=
  if dictContains d toolName then dictSet d toolName enabled else d

/-! ## QueryDispatcher (`mcp_client_for_ollama/client.py`, `process_query`) -/

/-- Python `s.split('.', 1)` restricted to the first match: returns the part
before the first `'.'` and the remainder, or `none` when no `'.'` occurs. -/
def splitFirstDot : List Char → Option (List Char × List Char)
  | [] => none
  | c :: cs =>
    if c = '.' then some ([], cs)
    else
      match splitFirstDot cs with
      | some (pre, post) => some (c :: pre, post)
      | none => none

/-- Line 782 of client.py:
`server_name, actual_tool_name = tool_name.split('.', 1) if '.' in tool_name else (None, tool_name)`. -/
def resolveQualified (toolName : String) : Option String × String :=
  match splitFirstDot toolName.toList with
  | some (pre, post) => (some ⟨pre⟩, ⟨post⟩)
  | none => (none, toolName)

/-- Line 784 of client.py: `if not server_name or server_name not in self.sessions`.
`not None` and `not ""` are both truthy in Python. -/
def callUnresolvable (sessions : List (String × SessionEntry)) (toolName : String) : Bool :=
  match (resolveQualified toolName).1 with
  | none => true
  | some srv => srv = "" || !(dictContains sessions srv)

/-- One model-issued tool call: qualified tool name plus (opaque) arguments. -/
structure ToolCall where
  name : String
  args : String
deriving Repr, DecidableEq

/-- What `session.call_tool(...)` followed by `result.content[0].text` does
for a given call: raise an exception, or yield the first content element's
text. -/
inductive ExecBehavior where
  | raises (msg : String)
  | returns (text : String)
deriving Repr, DecidableEq

/-- The tool-call loop of `process_query` (client.py lines 776-814), as a
function of the live session map and the calls paired with their execution
behaviour.  Returns `.error` when an exception escapes the loop (there is no
`try` around `call_tool`), and otherwise the list of console error prints
and the list of `{"role": "tool", ...}` transcript entries
`(tool name, text)` appended to `messages`. -/
def processToolCalls (sessions : List (String × SessionEntry)) :
    List (ToolCall × ExecBehavior) → Except String (List String × List (String × String))
  | [] => .ok ([], [])
  | (c, b) :: rest =>
    if callUnresolvable sessions c.name then
      match processToolCalls sessions rest with
      | .ok (errs, msgs) => .ok (("Error: Unknown server for tool " ++ c.name) :: errs, msgs)
      | .error e => .error e
    else
      match b with
      | .raises m => .error m
      | .returns txt =>
        match processToolCalls sessions rest with
        | .ok (errs, msgs) => .ok (errs, (c.name, txt) :: msgs)
        | .error e => .error e

/-! ## ToolManager (`mcp_client_for_ollama/tools/manager.py`) wired to a
`ServerConnector` (the `server_connector` notification target). -/

/-- The joint enablement state: the `ToolManager`'s `available_tools` and
`enabled_tools` together with the attached connector's `enabled_tools`. -/
structure ToolSystem where
  available_tools : List Tool
  manager_enabled : List (String × Bool)
  connector_enabled : List (String × Bool)
deriving Repr, DecidableEq

/-- `ToolManager.set_tool_status` (manager.py lines 130-139): update only a
present key, then notify the connector, whose `set_tool_status` again
updates only a present key. -/
def mgrSetToolStatus (s : ToolSystem) (toolName : String) (enabled : Bool) : ToolSystem :=
  if dictContains s.manager_enabled toolName then
    { s with
      manager_enabled := dictSet s.manager_enabled toolName enabled
      connector_enabled := connSetToolStatus s.connector_enabled toolName enabled }
  else s

/-- `ToolManager.disable_all_tools` (manager.py lines 119-128): set every
available tool's entry to `False` (inserting absent keys), then batch-notify
the connector, which updates only keys it already holds. -/
def mgrDisableAll (s : ToolSystem) : ToolSystem :=
  { s with
    manager_enabled :=
      s.available_tools.foldl (fun d (t : Tool) => dictSet d t.name false) s.manager_enabled
    connector_enabled :=
      s.available_tools.foldl (fun d (t : Tool) => connSetToolStatus d t.name false)
        s.connector_enabled }

/-! ## Server URL resolution -/

/-- A parsed `http`/`https` URL: scheme, host, optional explicit port, path. -/
structure ParsedUrl where
  scheme : String
  host : String
  port : Option String
  path : String
deriving Repr, DecidableEq

/-- Modelled from the spec: basic `http`/`https` URL parsing used by
`process_server_urls`, which is exercised by `src/tests/test_server_discovery.py`
but absent from the sources.  A URL is valid when it starts with an
`http://` or `https://` scheme and has a nonempty host; anything else fails
to parse. -/
def parseHttpUrl (s : String) : Option ParsedUrl :=
  let chars := s.toList
  let parse := fun (scheme : String) (rest : List Char) =>
    let hostport := rest.takeWhile (· ≠ '/')
    let path := rest.drop hostport.length
    let host := hostport.takeWhile (· ≠ ':')
    let portPart := hostport.drop (host.length + 1)
    if host = [] then none
    else
      some { scheme := scheme
             host := (⟨host⟩ : String)
             port := if host.length < hostport.length then some ⟨portPart⟩ else none
             path := (⟨path⟩ : String) }
  if chars.take 7 = "http://".toList then
    parse "http" (chars.drop 7)
  else if chars.take 8 = "https://".toList then
    parse "https" (chars.drop 8)
  else
    none

/-- Modelled from the spec: whether the URL path carries the recognizable
`"sse"` marker that selects the SSE server type. -/
def containsSse : List Char → Bool
  | [] => false
  | c :: rest =>
    (match c :: rest with
     | 's' :: 's' :: 'e' :: _ => true
     | _ => false) || containsSse rest

/-- Modelled from the spec: the server name derived deterministically from
host and explicit port, with every non-alphanumeric character replaced by an
underscore (e.g. `http://127.0.0.1:8000/mcp` → `127_0_0_1_8000`). -/
def serverNameFromUrl (u : ParsedUrl) : String :=
  let raw := u.host ++ (match u.port with | some p => ":" ++ p | none => "")
  ⟨raw.toList.map (fun c => if c.isAlphanum then c else '_')⟩

/-- A network-server spec produced from a URL: the dict
`{"type": ..., "url": ..., "name": ...}`. -/
structure UrlServerSpec where
  type : String
  url : String
  name : String
deriving Repr, DecidableEq

/-- Modelled from the spec: `process_server_urls` (referenced by
`src/tests/test_server_discovery.py`; its implementation is missing from the
sources).  Each URL failing basic http/https parsing is skipped silently;
each valid URL yields one spec whose type is `sse` when the path carries an
`"sse"` marker and `streamable_http` otherwise, and whose name derives from
host and port. -/
def processServerUrls : List String → List UrlServerSpec
  | [] => []
  | u :: rest =>
    match parseHttpUrl u with
    | none => processServerUrls rest
    | some p =>
      { type := if containsSse p.path.toList then "sse" else "streamable_http"
        url := u
        name := serverNameFromUrl p } :: processServerUrls rest

/-! ## Persisted configuration (`client.py` `save_configuration` /
`load_configuration`) -/

/-- The relevant state of an `MCPClient` for configuration persistence. -/
structure ClientState where
  model : String
  available_tools : List Tool
  enabled_tools : List (String × Bool)
  retain_context : Bool
  show_context_info : Bool
deriving Repr, DecidableEq

/-- The JSON object written by `save_configuration` / read by
`load_configuration`.  `Option` marks fields that may be absent from a
hand-edited or older file; `save_configuration` always writes all of them. -/
structure ConfigData where
  model : Option String
  enabledTools : Option (List (String × Bool))
  retainContext : Option Bool
  showContextInfo : Option Bool
deriving Repr, DecidableEq

/-- `save_configuration` (client.py lines 1013-1064) without the file system:
the `config_data` dict built at lines 1038-1045. -/
def saveConfiguration (s : ClientState) : ConfigData :=
  { model := some s.model
    enabledTools := some s.enabled_tools
    retainContext := some s.retain_context
    showContextInfo := some s.show_context_info }

/-- The loop at client.py lines 1113-1116: apply loaded enablement entries,
skipping tool names not present in the live catalog. -/
def applyLoadedTools (catalogNames : List String) (loaded : List (String × Bool))
    (d : List (String × Bool)) : List (String × Bool) :=
  loaded.foldl
    (fun d' (p : String × Bool) =>
      if memStr catalogNames p.1 then dictSet d' p.1 p.2 else d') d

/-- `load_configuration` (client.py lines 1066-1137) without the file system:
apply each present field; for `enabledTools`, apply only names present in the
live catalog (`available_tool_names`), via `applyLoadedTools`. -/
def loadConfiguration (s : ClientState) (c : ConfigData) : ClientState :=
  let s1 := match c.model with
            | some m => { s with model := m }
            | none => s
  let s2 := match c.enabledTools with
            | some loaded =>
              { s1 with enabled_tools :=
                  applyLoadedTools (s1.available_tools.map (·.name)) loaded s1.enabled_tools }
            | none => s1
  let s3 := match c.retainContext with
            | some b => { s2 with retain_context := b }
            | none => s2
  match c.showContextInfo with
  | some b => { s3 with show_context_info := b }
  | none => s3

/-- The fields of `ConfigManager._validate_config` (config/manager.py lines
191-259) relevant to tool enablement, model selection and context retention:
start from `default_config()` (defaults.py, `DEFAULT_MODEL = "qwen2.5:7b"`,
empty enablement map, `retainContext = True`) and override each field present
in the loaded data. -/
structure ValidatedConfig where
  model : String
  enabledTools : List (String × Bool)
  retainContext : Bool
deriving Repr, DecidableEq

def defaultValidatedConfig : ValidatedConfig :=
  { model := "qwen2.5:7b", enabledTools := [], retainContext := true }

def validateConfig (c : ConfigData) : ValidatedConfig :=
  let v0 := defaultValidatedConfig
  let v1 := match c.model with
            | some m => { v0 with model := m }
            | none => v0
  let v2 := match c.enabledTools with
            | some loaded => { v1 with enabledTools := loaded }
            | none => v1
  match c.retainContext with
  | some b => { v2 with retainContext := b }
  | none => v2

/-! ## Further dictionary lemmas -/

@[simp] theorem dictContains_dictSet_self (d : List (String × α)) (k : String) (v : α) :
    dictContains (dictSet d k v) k = true := by
  simp [dictContains]

theorem dictGet_eq_some_mem (d : List (String × α)) (k : String) (v : α)
    (h : dictGet d k = some v) : (k, v) ∈ d := by
  induction d with
  | nil => simp at h
  | cons p rest ih =>
    obtain ⟨k₀, v₀⟩ := p
    by_cases h0 : k₀ = k
    · subst h0
      simp at h
      simp [h]
    · simp [h0] at h
      exact List.mem_cons_of_mem _ (ih h)

theorem dictContains_connSetToolStatus (d : List (String × Bool)) (k : String) (v : Bool)
    (k' : String) : dictContains (connSetToolStatus d k v) k' = dictContains d k' := by
  unfold connSetToolStatus
  by_cases hc : dictContains d k
  · simp only [hc, if_true]
    by_cases h : k = k'
    · subst h
      simp [hc]
    · simp [dictContains, dictGet_dictSet_ne _ _ _ _ h]
  · simp [hc]

theorem dictGet_connSetToolStatus_ne (d : List (String × Bool)) (k : String) (v : Bool)
    (k' : String) (h : k ≠ k') :
    dictGet (connSetToolStatus d k v) k' = dictGet d k' := by
  unfold connSetToolStatus
  by_cases hc : dictContains d k
  · simp [hc, dictGet_dictSet_ne _ _ _ _ h]
  · simp [hc]

theorem dictContains_foldl_connSetToolStatus (ts : List Tool) (b : Bool)
    (d : List (String × Bool)) (k : String) :
    dictContains (ts.foldl (fun d' (t : Tool) => connSetToolStatus d' t.name b) d) k
      = dictContains d k := by
  induction ts generalizing d with
  | nil => rfl
  | cons t rest ih =>
    simp only [List.foldl_cons]
    rw [ih, dictContains_connSetToolStatus]

theorem dictGet_foldl_connSetToolStatus_not_mem (ts : List Tool) (b : Bool)
    (d : List (String × Bool)) (k : String) (h : k ∉ ts.map (·.name)) :
    dictGet (ts.foldl (fun d' (t : Tool) => connSetToolStatus d' t.name b) d) k
      = dictGet d k := by
  induction ts generalizing d with
  | nil => rfl
  | cons t rest ih =>
    have hne : t.name ≠ k := by
      intro he
      exact h (he ▸ List.mem_map_of_mem (·.name) (List.mem_cons_self t rest))
    have hrest : k ∉ rest.map (·.name) := by
      intro hm
      simp only [List.map_cons, List.mem_cons] at h
      exact h (Or.inr hm)
    simp only [List.foldl_cons]
    rw [ih _ hrest, dictGet_connSetToolStatus_ne _ _ _ _ hne]

theorem dictGet_foldl_connSetToolStatus_mem (ts : List Tool) (b : Bool)
    (d : List (String × Bool)) (k : String) (hk : k ∈ ts.map (·.name))
    (hc : dictContains d k = true) :
    dictGet (ts.foldl (fun d' (t : Tool) => connSetToolStatus d' t.name b) d) k
      = some b := by
  induction ts generalizing d with
  | nil => simp at hk
  | cons t rest ih =>
    simp only [List.foldl_cons]
    by_cases hmem : k ∈ rest.map (·.name)
    · exact ih (connSetToolStatus d t.name b) hmem
        (by rw [dictContains_connSetToolStatus]; exact hc)
    · have hn : t.name = k := by
        simp only [List.map_cons, List.mem_cons] at hk
        rcases hk with h1 | h2
        · exact h1.symm
        · exact absurd h2 hmem
      subst hn
      rw [dictGet_foldl_connSetToolStatus_not_mem rest b _ _ hmem]
      unfold connSetToolStatus
      simp [hc]

theorem dictGet_foldl_dictSet_tool_not_mem (ts : List Tool) (b : Bool)
    (d : List (String × Bool)) (k : String) (h : k ∉ ts.map (·.name)) :
    dictGet (ts.foldl (fun d' (t : Tool) => dictSet d' t.name b) d) k = dictGet d k := by
  induction ts generalizing d with
  | nil => rfl
  | cons t rest ih =>
    have hne : t.name ≠ k := by
      intro he
      exact h (he ▸ List.mem_map_of_mem (·.name) (List.mem_cons_self t rest))
    have hrest : k ∉ rest.map (·.name) := by
      intro hm
      simp only [List.map_cons, List.mem_cons] at h
      exact h (Or.inr hm)
    simp only [List.foldl_cons]
    rw [ih _ hrest, dictGet_dictSet_ne _ _ _ _ hne]

theorem dictGet_foldl_dictSet_tool_mem (ts : List Tool) (b : Bool)
    (d : List (String × Bool)) (k : String) (h : k ∈ ts.map (·.name)) :
    dictGet (ts.foldl (fun d' (t : Tool) => dictSet d' t.name b) d) k = some b := by
  induction ts generalizing d with
  | nil => simp at h
  | cons t rest ih =>
    simp only [List.foldl_cons]
    by_cases hmem : k ∈ rest.map (·.name)
    · exact ih _ hmem
    · have hn : t.name = k := by
        simp only [List.map_cons, List.mem_cons] at h
        rcases h with h1 | h2
        · exact h1.symm
        · exact absurd h2 hmem
      subst hn
      rw [dictGet_foldl_dictSet_tool_not_mem rest b _ _ hmem, dictGet_dictSet_self]

theorem splitFirstDot_eq_some (l pre post : List Char)
    (h : splitFirstDot l = some (pre, post)) :
    l = pre ++ '.' :: post ∧ '.' ∉ pre := by
  induction l generalizing pre post with
  | nil => simp [splitFirstDot] at h
  | cons c cs ih =>
    by_cases hc : c = '.'
    · subst hc
      simp [splitFirstDot] at h
      obtain ⟨h1, h2⟩ := h
      subst h1
      subst h2
      simp
    · simp only [splitFirstDot, if_neg hc] at h
      cases hsp : splitFirstDot cs with
      | none => rw [hsp] at h; exact Option.noConfusion h
      | some p =>
        obtain ⟨pre', post'⟩ := p
        rw [hsp] at h
        simp only [Option.some.injEq, Prod.mk.injEq] at h
        obtain ⟨h1, h2⟩ := h
        obtain ⟨ha, hb⟩ := ih pre' post' hsp
        subst h2
        constructor
        · rw [← h1, ha]
          simp
        · rw [← h1]
          intro hmem
          rcases List.mem_cons.mp hmem with he | he
          · exact hc he.symm
          · exact hb he

theorem splitFirstDot_eq_none (l : List Char) (h : '.' ∉ l) :
    splitFirstDot l = none := by
  induction l with
  | nil => rfl
  | cons c cs ih =>
    have hc : c ≠ '.' := by
      intro he
      exact h (he ▸ List.mem_cons_self c cs)
    simp only [splitFirstDot, if_neg hc]
    rw [ih (fun hm => h (List.mem_cons_of_mem c hm))]

theorem connSetToolStatus_eq (d : List (String × Bool)) (k : String) (v : Bool) :
    connSetToolStatus d k v = if dictContains d k then dictSet d k v else d := rfl

theorem connSetToolStatus_idem (d : List (String × Bool)) (k : String) (v : Bool) :
    connSetToolStatus (connSetToolStatus d k v) k v = connSetToolStatus d k v := by
  by_cases hc : dictContains d k = true
  · have h1 : connSetToolStatus d k v = dictSet d k v := by
      rw [connSetToolStatus_eq, if_pos hc]
    rw [h1, connSetToolStatus_eq, if_pos (dictContains_dictSet_self d k v)]
    exact dictSet_of_dictGet_eq _ _ _ (dictGet_dictSet_self _ _ _)
  · have h1 : connSetToolStatus d k v = d := by
      rw [connSetToolStatus_eq, if_neg hc]
    rw [h1]
    exact h1

theorem applyLoadedTools_nil (cat : List String) (d : List (String × Bool)) :
    applyLoadedTools cat [] d = d := rfl

theorem applyLoadedTools_cons (cat : List String) (p : String × Bool)
    (rest : List (String × Bool)) (d : List (String × Bool)) :
    applyLoadedTools cat (p :: rest) d
      = applyLoadedTools cat rest
          (if memStr cat p.1 then dictSet d p.1 p.2 else d) := rfl

theorem dictGet_applyLoadedTools_not_mem (cat : List String)
    (loaded : List (String × Bool)) (d : List (String × Bool)) (k : String)
    (h : k ∉ loaded.map (·.1)) :
    dictGet (applyLoadedTools cat loaded d) k = dictGet d k := by
  induction loaded generalizing d with
  | nil => rfl
  | cons p rest ih =>
    have hne : p.1 ≠ k := by
      intro he
      exact h (he ▸ List.mem_map_of_mem (·.1) (List.mem_cons_self p rest))
    have hrest : k ∉ rest.map (·.1) := by
      intro hm
      simp only [List.map_cons, List.mem_cons] at h
      exact h (Or.inr hm)
    rw [applyLoadedTools_cons, ih _ hrest]
    by_cases hc : memStr cat p.1
    · simp [hc, dictGet_dictSet_ne _ _ _ _ hne]
    · simp [hc]

theorem dictGet_applyLoadedTools_mem (cat : List String)
    (loaded : List (String × Bool)) (d : List (String × Bool)) (k : String) (v : Bool)
    (hnodup : (loaded.map (·.1)).Nodup) (hmem : (k, v) ∈ loaded) :
    dictGet (applyLoadedTools cat loaded d) k
      = if memStr cat k then some v else dictGet d k := by
  induction loaded generalizing d with
  | nil => simp at hmem
  | cons p rest ih =>
    simp only [List.map_cons, List.nodup_cons] at hnodup
    rw [applyLoadedTools_cons]
    rcases List.mem_cons.mp hmem with h1 | h2
    · subst h1
      have hk : k ∉ rest.map (·.1) := hnodup.1
      rw [dictGet_applyLoadedTools_not_mem cat rest _ k hk]
      by_cases hc : memStr cat k <;> simp [hc]
    · have hkrest : k ∈ rest.map (·.1) := List.mem_map_of_mem (·.1) h2
      have hne : p.1 ≠ k := fun he => hnodup.1 (he ▸ hkrest)
      rw [ih _ hnodup.2 h2]
      by_cases hck : memStr cat k
      · simp [hck]
      · simp only [hck, if_false]
        by_cases hc : memStr cat p.1 <;>
          simp [hc, dictGet_dictSet_ne _ _ _ _ hne]

theorem dictGet_applyLoadedTools_not_cat (cat : List String)
    (loaded : List (String × Bool)) (d : List (String × Bool)) (k : String)
    (hk : memStr cat k = false) :
    dictGet (applyLoadedTools cat loaded d) k = dictGet d k := by
  induction loaded generalizing d with
  | nil => rfl
  | cons p rest ih =>
    rw [applyLoadedTools_cons, ih]
    by_cases hc : memStr cat p.1
    · have hne : p.1 ≠ k := by
        intro he
        rw [he, hk] at hc
        exact Bool.noConfusion hc
      simp [hc, dictGet_dictSet_ne _ _ _ _ hne]
    · simp [hc]

/-! ## Claim theorems -/

/-- Claim C1: `connect_to_servers` completes without raising even when
individual server connections fail.  In a connect pass over three specs where
the second raises during handshake, the attempt's `try` body propagates an
exception, `_connect_to_server` catches it and returns `False`, the resulting
session map contains exactly the sessions of specs 1 and 3, and whatever the
second spec's attempt does, the third spec is still processed. -/
theorem connectAll_isolates_failures
    (n1 n2 n3 : String) (t1 t3 : List Tool) (h13 : n1 ≠ n3) :
    (∀ st : ConnState, (connectBody st n2 .handshakeError).2 = .error "initialize") ∧
    (∀ st : ConnState, (connectToServer st n2 .handshakeError).2 = false) ∧
    dictKeys (connectAll emptyConnState
      [(n1, .ok t1), (n2, .handshakeError), (n3, .ok t3)]).sessions = [n1, n3] ∧
    (∀ oc2 : ConnectOutcome, dictContains (connectAll emptyConnState
      [(n1, .ok t1), (n2, oc2), (n3, .ok t3)]).sessions n3 = true) := by
  refine ⟨fun st => rfl, fun st => rfl, ?_, ?_⟩
  · simp [connectAll, connectToServer, connectBody, dictSet, dictKeys, h13]
  · intro oc2
    cases oc2 <;>
      simp [connectAll, connectToServer, connectBody, dictContains, dictGet_dictSet]

theorem connectAll_isolates_failures_witness :
    ("a" : String) ≠ "c" ∧
    dictKeys (connectAll emptyConnState
      [("a", .ok []), ("b", .handshakeError), ("c", .ok [])]).sessions = ["a", "c"] :=
  ⟨by decide, (connectAll_isolates_failures "a" "b" "c" [] [] (by decide)).2.2.1⟩

/-- Claim C2, counterexample: an attempt that fails during `list_tools()`
(after `session.initialize()` succeeded) returns `False` — the connection
attempt failed — yet its session entry is present in the session map returned
by `connect_to_servers`, because connector.py stores the session (line 171)
before awaiting `list_tools()` (line 177). -/
theorem session_stored_despite_failed_attempt :
    (connectToServer emptyConnState "srv" .listToolsError).2 = false ∧
    dictContains (connectAll emptyConnState
      [("srv", .listToolsError)]).sessions "srv" = true := by
  exact ⟨rfl, rfl⟩

/-- Claim C2, amended: a session entry exists for a name (fresh before the
attempt) if and only if that server's handshake (`session.initialize()`)
completed successfully — which includes attempts that subsequently fail
during `list_tools()`; a spec failing before or during handshake never
appears. -/
theorem session_iff_handshake (st : ConnState) (name : String) (oc : ConnectOutcome)
    (h : dictContains st.sessions name = false) :
    dictContains (connectToServer st name oc).1.sessions name = handshakeCompleted oc := by
  cases oc <;>
    simp_all [connectToServer, connectBody, handshakeCompleted]

theorem session_iff_handshake_witness :
    dictContains emptyConnState.sessions "x" = false ∧
    dictContains (connectToServer emptyConnState "x" .listToolsError).1.sessions "x"
      = handshakeCompleted .listToolsError :=
  ⟨by decide, session_iff_handshake emptyConnState "x" .listToolsError (by decide)⟩

/-- Claim C3, counterexample: a tool `serverA.toolX` whose prior enablement
is `false` is re-enabled by a reconnect of `serverA` exposing `toolX`:
connector.py line 192 assigns `True` unconditionally, so the restored
enablement is `true`, not the preserved `false` the claim asserts. -/
theorem reconnect_overwrites_prior_enablement :
    dictGet (connectToServer
        { sessions := [], available_tools := [],
          enabled_tools := [("serverA.toolX", false)] }
        "serverA"
        (.ok [{ name := "toolX", description := "d", inputSchema := "s",
                outputSchema := none }])).1.enabled_tools
      "serverA.toolX" = some true ∧
    dictGet (connectToServer
        { sessions := [], available_tools := [],
          enabled_tools := [("serverA.toolX", false)] }
        "serverA"
        (.ok [{ name := "toolX", description := "d", inputSchema := "s",
                outputSchema := none }])).1.enabled_tools
      "serverA.toolX" ≠ some false := by
  exact ⟨rfl, by decide⟩

/-- Claim C3, amended: after a (re)connect of a server, the enablement flag
of every qualified tool name the server exposes is `true` — any value a
prior enablement map supplied for the same qualified name is overwritten
rather than preserved, and absent names also default to `true`. -/
theorem connect_enables_all_server_tools (st : ConnState) (name : String)
    (tools : List Tool) (qn : String)
    (h : qn ∈ (qualifyTools name tools).map (·.name)) :
    dictGet (connectToServer st name (.ok tools)).1.enabled_tools qn = some true := by
  show dictGet ((qualifyTools name tools).foldl
      (fun e (t : Tool) => dictSet e t.name true) st.enabled_tools) qn = some true
  exact dictGet_foldl_dictSet_tool_mem _ _ _ _ h

theorem connect_enables_all_server_tools_witness :
    "s.t" ∈ (qualifyTools "s" [⟨"t", "d", "i", none⟩]).map (·.name) ∧
    dictGet (connectToServer emptyConnState "s"
        (.ok [⟨"t", "d", "i", none⟩])).1.enabled_tools "s.t" = some true :=
  ⟨by decide,
   connect_enables_all_server_tools emptyConnState "s"
     [⟨"t", "d", "i", none⟩] "s.t" (by decide)⟩

/-- Claim C4: qualified tool-name resolution is a total function splitting
once on the first `'.'` — `"serverA.toolX"` resolves to
`(serverA, toolX)` — and a call whose name has no dot, or whose server part
is not a key of the live session map, records an unknown-server dispatch
error for that specific call and processing continues with the remaining
calls of the turn: such a call can never make the loop raise. -/
theorem qualified_resolution_total_and_isolating :
    resolveQualified "serverA.toolX" = (some "serverA", "toolX") ∧
    (∀ (s pre post : String), resolveQualified s = (some pre, post) →
       s.toList = pre.toList ++ '.' :: post.toList ∧ '.' ∉ pre.toList) ∧
    (∀ s : String, '.' ∉ s.toList → resolveQualified s = (none, s)) ∧
    ∀ (sessions : List (String × SessionEntry)) (c : ToolCall) (b : ExecBehavior)
      (rest : List (ToolCall × ExecBehavior)),
      callUnresolvable sessions c.name = true →
      processToolCalls sessions ((c, b) :: rest) =
        Except.map (fun p => (("Error: Unknown server for tool " ++ c.name) :: p.1, p.2))
          (processToolCalls sessions rest) := by
  refine ⟨by decide, ?_, ?_, ?_⟩
  · intro s pre post h
    unfold resolveQualified at h
    cases hsp : splitFirstDot s.toList with
    | none =>
      rw [hsp] at h
      simp at h
    | some p =>
      obtain ⟨a, b⟩ := p
      rw [hsp] at h
      simp only [Prod.mk.injEq, Option.some.injEq] at h
      obtain ⟨h1, h2⟩ := h
      obtain ⟨ha, hb⟩ := splitFirstDot_eq_some _ _ _ hsp
      subst h1
      subst h2
      exact ⟨ha, hb⟩
  · intro s h
    unfold resolveQualified
    rw [splitFirstDot_eq_none _ h]
  · intro sessions c b rest h
    simp only [processToolCalls, h, if_true]
    cases hr : processToolCalls sessions rest with
    | ok p => cases p; rfl
    | error e => rfl

theorem qualified_resolution_total_and_isolating_witness :
    callUnresolvable [] "nodot" = true ∧
    processToolCalls [] [(⟨"nodot", "a"⟩, .returns "r")] =
      Except.map
        (fun p => (("Error: Unknown server for tool " ++ ("nodot" : String)) :: p.1, p.2))
        (processToolCalls [] []) :=
  ⟨by decide,
   qualified_resolution_total_and_isolating.2.2.2 [] ⟨"nodot", "a"⟩ (.returns "r") []
     (by decide)⟩

/-- Claim C5, counterexample: an unknown-server dispatch error does NOT
produce a transcript entry — the call is only logged to the console and the
transcript stays empty — and a tool execution exception is not converted to
a transcript entry either: it escapes the loop and aborts the turn. -/
theorem dispatch_error_produces_no_transcript_entry :
    processToolCalls [] [(⟨"ghost.tool", "{}"⟩, .returns "r")] =
      .ok (["Error: Unknown server for tool ghost.tool"], []) ∧
    processToolCalls [("a", ⟨[]⟩)] [(⟨"a.t", "{}"⟩, .raises "boom")] = .error "boom" :=
  ⟨rfl, rfl⟩

/-- Claim C5, amended: an unknown-server dispatch error is recorded only as
a console error message — the call is skipped and contributes no transcript
entry, the transcript being exactly that of the remaining calls — while a
tool execution exception is not caught by the dispatch loop: it propagates
and aborts the turn. -/
theorem dispatch_errors_console_only_and_exceptions_abort :
    (∀ (sessions : List (String × SessionEntry)) (c : ToolCall) (b : ExecBehavior)
       (rest : List (ToolCall × ExecBehavior)) (errs : List String)
       (msgs : List (String × String)),
       callUnresolvable sessions c.name = true →
       processToolCalls sessions rest = .ok (errs, msgs) →
       processToolCalls sessions ((c, b) :: rest) =
         .ok (("Error: Unknown server for tool " ++ c.name) :: errs, msgs)) ∧
    (∀ (sessions : List (String × SessionEntry)) (c : ToolCall) (m : String)
       (rest : List (ToolCall × ExecBehavior)),
       callUnresolvable sessions c.name = false →
       processToolCalls sessions ((c, .raises m) :: rest) = .error m) := by
  constructor
  · intro sessions c b rest errs msgs h hr
    simp only [processToolCalls, h, if_true, hr]
  · intro sessions c m rest h
    simp only [processToolCalls, h]
    rfl

theorem dispatch_errors_console_only_and_exceptions_abort_witness :
    (callUnresolvable [] "ghost.tool" = true ∧
     processToolCalls [] [] = .ok ([], []) ∧
     processToolCalls [] [(⟨"ghost.tool", "{}"⟩, .returns "r")] =
       .ok (["Error: Unknown server for tool " ++ ("ghost.tool" : String)], [])) ∧
    (callUnresolvable [("a", ⟨[]⟩)] "a.t" = false ∧
     processToolCalls [("a", ⟨[]⟩)] [(⟨"a.t", "{}"⟩, .raises "boom")] = .error "boom") :=
  ⟨⟨by decide, rfl,
    dispatch_errors_console_only_and_exceptions_abort.1 [] ⟨"ghost.tool", "{}"⟩
      (.returns "r") [] [] [] (by decide) rfl⟩,
   ⟨by decide,
    dispatch_errors_console_only_and_exceptions_abort.2 [("a", ⟨[]⟩)] ⟨"a.t", "{}"⟩
      "boom" [] (by decide)⟩⟩

/-- Claim C6: enable/disable operations on the tool-enablement state are
idempotent pure state mutations: `disable_all_tools` twice leaves the same
state as once, and `set_tool_status x True` twice leaves the same state as
once — in the manager's map and in the notified connector's map alike. -/
theorem enable_disable_idempotent :
    (∀ s : ToolSystem, mgrDisableAll (mgrDisableAll s) = mgrDisableAll s) ∧
    (∀ (s : ToolSystem) (x : String),
       mgrSetToolStatus (mgrSetToolStatus s x true) x true = mgrSetToolStatus s x true) := by
  constructor
  · intro s
    unfold mgrDisableAll
    simp only
    congr 1
    · exact foldl_fixed _ _ _ (fun t ht =>
        dictSet_of_dictGet_eq _ _ _
          (dictGet_foldl_dictSet_tool_mem s.available_tools false s.manager_enabled t.name
            (List.mem_map_of_mem (·.name) ht)))
    · refine foldl_fixed _ _ _ (fun t ht => ?_)
      rw [connSetToolStatus_eq, dictContains_foldl_connSetToolStatus]
      by_cases hc : dictContains s.connector_enabled t.name = true
      · rw [if_pos hc]
        exact dictSet_of_dictGet_eq _ _ _
          (dictGet_foldl_connSetToolStatus_mem s.available_tools false
            s.connector_enabled t.name (List.mem_map_of_mem (·.name) ht) hc)
      · rw [if_neg hc]
  · intro s x
    by_cases hm : dictContains s.manager_enabled x = true
    · have h1 : mgrSetToolStatus s x true =
          { s with manager_enabled := dictSet s.manager_enabled x true
                   connector_enabled := connSetToolStatus s.connector_enabled x true } := by
        unfold mgrSetToolStatus
        rw [if_pos hm]
      rw [h1]
      unfold mgrSetToolStatus
      rw [if_pos (dictContains_dictSet_self s.manager_enabled x true)]
      simp only
      congr 1
      · exact dictSet_of_dictGet_eq _ _ _ (dictGet_dictSet_self _ _ _)
      · exact connSetToolStatus_idem _ _ _
    · have h1 : mgrSetToolStatus s x true = s := by
        unfold mgrSetToolStatus
        rw [if_neg hm]
      rw [h1]
      exact h1

/-- Claim C7: URL resolution drops every URL failing basic http/https
parsing, without throwing, and the returned spec list's length excludes the
dropped URLs; resolving `["not-a-url", "http://h:1/sse"]` yields exactly one
spec. -/
theorem url_resolution_filters_invalid :
    (∀ urls : List String,
       (processServerUrls urls).length
         = (urls.filter (fun u => (parseHttpUrl u).isSome)).length) ∧
    processServerUrls ["not-a-url", "http://h:1/sse"]
      = [{ type := "sse", url := "http://h:1/sse", name := "h_1" }] := by
  constructor
  · intro urls
    induction urls with
    | nil => rfl
    | cons u rest ih =>
      cases hp : parseHttpUrl u with
      | none => simpa [processServerUrls, hp, List.filter_cons] using ih
      | some p => simpa [processServerUrls, hp, List.filter_cons] using ih
  · rfl

/-- Claim C8: after `save_configuration` followed by `load_configuration`
on the same client state, the enablement value of every tool name present
both in the saved map and in the live catalog is unchanged; loading ignores
names absent from the live catalog (their entries keep their current
values), and `_validate_config` silently substitutes defaults for unset
fields while reproducing a saved configuration's fields exactly. -/
theorem config_roundtrip (s : ClientState) (name : String) (v : Bool)
    (hnodup : (s.enabled_tools.map (·.1)).Nodup)
    (hsaved : dictGet s.enabled_tools name = some v)
    (hcat : name ∈ s.available_tools.map (·.name)) :
    dictGet (loadConfiguration s (saveConfiguration s)).enabled_tools name = some v ∧
    (∀ (c : ConfigData) (k : String),
       memStr (s.available_tools.map (·.name)) k = false →
       dictGet (loadConfiguration s c).enabled_tools k = dictGet s.enabled_tools k) ∧
    validateConfig { model := none, enabledTools := none, retainContext := none,
                     showContextInfo := none } = defaultValidatedConfig ∧
    validateConfig (saveConfiguration s)
      = { model := s.model, enabledTools := s.enabled_tools,
          retainContext := s.retain_context } := by
  refine ⟨?_, ?_, rfl, rfl⟩
  · have hres : (loadConfiguration s (saveConfiguration s)).enabled_tools
        = applyLoadedTools (s.available_tools.map (·.name)) s.enabled_tools
            s.enabled_tools := rfl
    rw [hres,
      dictGet_applyLoadedTools_mem _ _ _ _ v hnodup (dictGet_eq_some_mem _ _ _ hsaved),
      if_pos ((memStr_iff _ _).mpr hcat)]
  · intro c k hk
    obtain ⟨cm, ce, cr, cs⟩ := c
    cases cm <;> cases ce <;> cases cr <;> cases cs <;>
      first
        | rfl
        | exact dictGet_applyLoadedTools_not_cat _ _ _ _ hk

theorem config_roundtrip_witness :
    ((([("x", false)] : List (String × Bool)).map (·.1)).Nodup ∧
     dictGet [("x", false)] "x" = some false ∧
     "x" ∈ ([(⟨"x", "d", "i", none⟩ : Tool)].map (·.name))) ∧
    dictGet (loadConfiguration
        { model := "m", available_tools := [⟨"x", "d", "i", none⟩],
          enabled_tools := [("x", false)], retain_context := true,
          show_context_info := false }
        (saveConfiguration
          { model := "m", available_tools := [⟨"x", "d", "i", none⟩],
            enabled_tools := [("x", false)], retain_context := true,
            show_context_info := false })).enabled_tools "x" = some false :=
  ⟨⟨by decide, by decide, by decide⟩,
   (config_roundtrip
      { model := "m", available_tools := [⟨"x", "d", "i", none⟩],
        enabled_tools := [("x", false)], retain_context := true,
        show_context_info := false }
      "x" false (by decide) (by decide) (by decide)).1⟩

/-- Claim C9: `set_tool_status` on a name absent from the enablement map is
a state-wise no-op — it inserts nothing and changes no entry — and on a
present name it changes exactly that entry to the given value, leaving all
other entries and the key sequence unchanged; this holds for the
connector's map and for the manager (with its connector notification). -/
theorem set_tool_status_frame :
    (∀ (d : List (String × Bool)) (k : String) (b : Bool),
       dictContains d k = false → connSetToolStatus d k b = d) ∧
    (∀ (s : ToolSystem) (k : String) (b : Bool),
       dictContains s.manager_enabled k = false → mgrSetToolStatus s k b = s) ∧
    (∀ (d : List (String × Bool)) (k : String) (b : Bool) (k' : String),
       dictContains d k = true →
         dictGet (connSetToolStatus d k b) k = some b ∧
         (k' ≠ k → dictGet (connSetToolStatus d k b) k' = dictGet d k') ∧
         dictKeys (connSetToolStatus d k b) = dictKeys d) := by
  refine ⟨?_, ?_, ?_⟩
  · intro d k b h
    rw [connSetToolStatus_eq, if_neg (by simp [h])]
  · intro s k b h
    unfold mgrSetToolStatus
    rw [if_neg (by simp [h])]
  · intro d k b k' h
    refine ⟨?_, fun hne => ?_, ?_⟩
    · rw [connSetToolStatus_eq, if_pos h]
      exact dictGet_dictSet_self _ _ _
    · rw [connSetToolStatus_eq, if_pos h]
      exact dictGet_dictSet_ne _ _ _ _ (fun he => hne he.symm)
    · rw [connSetToolStatus_eq, if_pos h]
      exact dictKeys_dictSet_of_contains _ _ _ h

theorem set_tool_status_frame_witness :
    (dictContains [("a", true)] "b" = false ∧
     connSetToolStatus [("a", true)] "b" false = [("a", true)]) ∧
    (dictContains [("a", true)] "a" = true ∧
     dictGet (connSetToolStatus [("a", true)] "a" false) "a" = some false) :=
  ⟨⟨by decide, set_tool_status_frame.1 [("a", true)] "b" false (by decide)⟩,
   ⟨by decide, (set_tool_status_frame.2.2 [("a", true)] "a" false "z" (by decide)).1⟩⟩

/-- Claim C10: when two entries of one connect pass share a derived name
and both succeed, the session map ends with exactly one entry for that
name — the later connection's session, silently overwriting the earlier —
while `available_tools` keeps the qualified descriptors contributed by both
connections, including those whose originating session was replaced. -/
theorem duplicate_name_last_wins_tools_accumulate (n : String) (t1 t2 : List Tool) :
    (connectToServer emptyConnState n (.ok t1)).2 = true ∧
    (connectToServer (connectAll emptyConnState [(n, .ok t1)]) n (.ok t2)).2 = true ∧
    (connectAll emptyConnState [(n, .ok t1), (n, .ok t2)]).sessions
        = [(n, ⟨qualifyTools n t2⟩)] ∧
    (connectAll emptyConnState [(n, .ok t1), (n, .ok t2)]).available_tools
        = qualifyTools n t1 ++ qualifyTools n t2 := by
  refine ⟨rfl, rfl, ?_, ?_⟩ <;>
    simp [connectAll, connectToServer, connectBody, dictSet, emptyConnState]

end MCPO
